import Mathlib

/-!
Shallow embedding of two leaf modules of the qutebrowser excerpt:

* `qutebrowser/utils/url.py` — the URL-vs-search-term classifier
  (`_get_search_url`, `_is_url_naive`, `_is_url_dns`, `is_special_url`,
  `is_url`, `fuzzy_url`).

* the external-editor session (`qutebrowser.utils.editor.ExternalEditor`).
  The module itself is not part of the excerpt; only its unit tests
  (`qutebrowser/test/utils/test_editor.py`) are.  That part is modelled
  from the specification, with the behaviour pinned by those tests.

Texts are modelled as `List Char` (Unicode code points; the UTF-8 byte
level of the temp file is abstracted away).  Python regular-expression
character classes are modelled for the ASCII range that the inputs of
interest use.
-/

namespace Qb

/-- Python `\s` (whitespace) restricted to its ASCII members:
space, tab, newline, carriage return, vertical tab, form feed. -/
def pySpace (c : Char) : Bool :=
  c = ' ' || c = '\t' || c = '\n' || c = '\r' || c = Char.ofNat 11 || c = Char.ofNat 12

/-- Python `\w` (word character) restricted to its ASCII members:
letters, digits and underscore. -/
def isWordChar (c : Char) : Bool :=
  c.isAlphanum || c = '_'

/-- Does the position after a `!word` token satisfy `($|\s+)`:
end of string or a whitespace character. -/
def boundaryAfter (r : List Char) : Bool :=
  match r with
  | [] => true
  | d :: _ => pySpace d

/-- Attempt to match `!(W+)($|\s+)` at the head of `cs`, where `W` is the
word-character class `p`.  On success, return the word (regex group 2);
the trailing whitespace run also belongs to the match, as `\s+` is greedy. -/
def bangToken (p : Char → Bool) (cs : List Char) : Option (List Char) :=
  match cs with
  | c :: rest =>
      if c = '!' then
        let w := rest.takeWhile p
        let r := rest.dropWhile p
        if w.isEmpty then none
        else if boundaryAfter r then some w else none
      else none
  | [] => none

/-- The input remaining after a successful `bangToken` match at the head of
`cs`: drop the `!`, the word, and the greedy trailing whitespace run. -/
def bangAfter (p : Char → Bool) (cs : List Char) : List Char :=
  (((cs.drop 1).dropWhile p).dropWhile pySpace)

/-- Scan for the first match of `(^|\s+)!(W+)($|\s+)` (the regex `r` of
`_get_search_url`, generalised over the word class `W`) and return group 2.
The flag records whether the current position is the start of the string or
is preceded by a whitespace character, i.e. whether `(^|\s+)` can end
here.  Mirrors `r.search(txt)` followed by `m.group(2)`. -/
def bangSearch (p : Char → Bool) : Bool → List Char → Option (List Char)
  | _, [] => none
  | flag, c :: rest =>
      match (if flag then bangToken p (c :: rest) else none) with
      | some w => some w
      | none => bangSearch p (pySpace c) rest

/-- Model of `r.sub('', txt)`: delete every (leftmost, non-overlapping)
match of `(^|\s+)!(W+)($|\s+)`.  `atStart` records whether the scan
position is the absolute start of the string, where the zero-width `^`
alternative of `(^|\s+)` applies; at any other position a match must begin
with a whitespace run (`\s+` greedily takes the whole run, and a run whose
tail fails the rest of the pattern cannot succeed from a later start
inside the run either). -/
def bangSubAux (p : Char → Bool) : Nat → Bool → List Char → List Char
  | 0, _, cs => cs
  | _, _, [] => []
  | fuel + 1, atStart, c :: rest =>
      if atStart && (bangToken p (c :: rest)).isSome then
        bangSubAux p fuel false (bangAfter p (c :: rest))
      else if pySpace c && (bangToken p ((c :: rest).dropWhile pySpace)).isSome then
        bangSubAux p fuel false (bangAfter p ((c :: rest).dropWhile pySpace))
      else c :: bangSubAux p fuel false rest

/-- Model of `r.sub('', txt)` in `_get_search_url`: strip every
`(^|\s+)!(W+)($|\s+)` token (including the surrounding whitespace that the
match consumes) from the text.  The fuel `txt.length` bounds the number of
scanning steps; each step consumes at least one character, so it never
runs out. -/
def bangSub (p : Char → Bool) (txt : List Char) : List Char :=
  bangSubAux p txt.length true txt

/-- The two `ValueError`s raised by `_get_search_url`. -/
inductive SearchError
  | noTemplate
  | noTerm
deriving DecidableEq, Repr

/-- The `searchengines` configuration section: key-to-template association
list; `lookup` models `config.config.get('searchengines', key, fallback=None)`. -/
abbrev SearchConfig := List (List Char × List Char)

/-- The key of the default search engine. -/
def defaultKey : List Char := ['D', 'E', 'F', 'A', 'U', 'L', 'T']

/-- The tail of `_get_search_url` shared by both branches: raise
`ValueError("Search template is None")` when the looked-up template is
missing, raise `ValueError("No search term given")` when the term is
falsy (empty), otherwise succeed with the template and the term that get
combined by `template.format(urllib.parse.quote(term))`.  The
percent-encoding and `QUrl` construction sit beyond the model boundary, so
the result is the (template, term) pair. -/
def searchFrom (cfg : SearchConfig) (key : List Char) (term : List Char) :
    Except SearchError (List Char × List Char) :=
  match cfg.lookup key with
  | none => Except.error SearchError.noTemplate
  | some template =>
      if term = [] then Except.error SearchError.noTerm
      else Except.ok (template, term)

/-- Model of `_get_search_url` (`qutebrowser/utils/url.py`, lines 30-60):
search the text for the engine marker with `r = (^|\s+)!(\w+)($|\s+)`; on a
match, the engine is group 2 and the term is `r.sub('', txt)`; otherwise
the engine is `DEFAULT` and the term is the whole text. -/
def get_search_url (cfg : SearchConfig) (txt : List Char) :
    Except SearchError (List Char × List Char) :=
  match bangSearch isWordChar true txt with
  | some engine => searchFrom cfg engine (bangSub isWordChar txt)
  | none => searchFrom cfg defaultKey txt

/-- The engine key `_get_search_url` selects for a text (group 2 of the
regex match when there is one, the `DEFAULT` key otherwise). -/
def selectedKey (txt : List Char) : List Char :=
  match bangSearch isWordChar true txt with
  | some engine => engine
  | none => defaultKey

/-- The search term remaining after `_get_search_url` strips the engine
marker (the whole text when there is no marker). -/
def strippedTerm (txt : List Char) : List Char :=
  match bangSearch isWordChar true txt with
  | some _ => bangSub isWordChar txt
  | none => txt

/-- The scheme prefixes checked by `_is_url_naive` ('http://', 'https://'). -/
def httpPat : List Char := ['h', 't', 't', 'p', ':', '/', '/']

def httpsPat : List Char := ['h', 't', 't', 'p', 's', ':', '/', '/']

def aboutPat : List Char := ['a', 'b', 'o', 'u', 't']

def qutePat : List Char := ['q', 'u', 't', 'e']

def localhostStr : List Char := ['l', 'o', 'c', 'a', 'l', 'h', 'o', 's', 't']

/-- Model of `_is_url_naive` (`url.py`, lines 63-75): the text starts with
'http://' or 'https://', contains a '.', or equals 'localhost'. -/
def is_url_naive (u : List Char) : Bool :=
  httpPat.isPrefixOf u || httpsPat.isPrefixOf u || u.contains '.' || u == localhostStr

/-- Model of `_is_url_dns` (`url.py`, lines 78-98): an empty host is
immediately not a URL; otherwise the answer is whatever
`socket.gethostbyname` says, modelled by the oracle `resolve` (true when
resolution succeeds, false when it raises `socket.gaierror`). -/
def is_url_dns (resolve : List Char → Bool) (host : List Char) : Bool :=
  if host = [] then false else resolve host

/-- Scanner for `str.replace('http://', '')` with an explicit step bound:
delete every (left-to-right, non-overlapping) occurrence of 'http://'. -/
def stripHttpF : Nat → List Char → List Char
  | 0, cs => cs
  | _, [] => []
  | fuel + 1, c :: cs =>
      if httpPat.isPrefixOf (c :: cs) then stripHttpF fuel ((c :: cs).drop 7)
      else c :: stripHttpF fuel cs

/-- Model of `str.replace('http://', '')`: delete every (left-to-right,
non-overlapping) occurrence of 'http://'.  The fuel `u.length` bounds the
number of scanning steps; each step consumes at least one character, so it
never runs out. -/
def stripHttp (u : List Char) : List Char :=
  stripHttpF u.length u

/-- Model of `is_special_url` (`url.py`, lines 151-156): after deleting
every 'http://', does the text start with 'about' or with 'qute'. -/
def is_special_url (u : List Char) : Bool :=
  aboutPat.isPrefixOf (stripHttp u) || qutePat.isPrefixOf (stripHttp u)

/-- The value of the `general.auto_search` configuration option as `is_url`
consumes it: a falsy value (`disabled`), the string 'dns', the string
'naive', or any other truthy value (`invalid`). -/
inductive AutoSearch
  | disabled
  | dns
  | naive
  | invalid
deriving DecidableEq, Repr

/-- Model of `is_url` (`url.py`, lines 159-197).  `hostOf` models
`QUrl.fromUserInput(urlstr).host()` and `resolve` the DNS oracle of
`_is_url_dns`.  `Except.error ()` is the `ValueError("Invalid autosearch
value")`. -/
def is_url (hostOf : List Char → List Char) (resolve : List Char → Bool)
    (autosearch : AutoSearch) (urlstr : List Char) : Except Unit Bool :=
  match autosearch with
  | AutoSearch.disabled => Except.ok true
  | mode =>
      if urlstr.contains ' ' then Except.ok false
      else if is_special_url urlstr then Except.ok true
      else
        match mode with
        | AutoSearch.dns => Except.ok (is_url_dns resolve (hostOf urlstr))
        | AutoSearch.naive => Except.ok (is_url_naive urlstr)
        | _ => Except.error ()

/-- The result of `fuzzy_url`: either `QUrl.fromUserInput(urlstr)` applied
to the raw input, or a search URL built from a template and a term by
`_get_search_url`. -/
inductive FuzzyResult
  | fromUserInput (s : List Char)
  | searchUrl (template term : List Char)
deriving DecidableEq, Repr

/-- Model of `fuzzy_url` (`url.py`, lines 125-148): inputs classified as
URLs go through `QUrl.fromUserInput`; otherwise `_get_search_url` is
tried and its `ValueError` falls back to `QUrl.fromUserInput` on the raw
input.  The `ValueError` of `is_url` itself is not caught and propagates. -/
def fuzzy_url (hostOf : List Char → List Char) (resolve : List Char → Bool)
    (autosearch : AutoSearch) (cfg : SearchConfig) (urlstr : List Char) :
    Except Unit FuzzyResult :=
  match is_url hostOf resolve autosearch urlstr with
  | Except.error e => Except.error e
  | Except.ok true => Except.ok (FuzzyResult.fromUserInput urlstr)
  | Except.ok false =>
      match get_search_url cfg urlstr with
      | Except.error _ => Except.ok (FuzzyResult.fromUserInput urlstr)
      | Except.ok (template, term) => Except.ok (FuzzyResult.searchUrl template term)

/-- The special-scheme prefix predicate in the words of the specification:
the text matches `about:` or `qute:`, allowing an optional leading
`http://`. -/
def spec_special (u : List Char) : Bool :=
  let v := if httpPat.isPrefixOf u then u.drop 7 else u
  (aboutPat ++ [':']).isPrefixOf v || (qutePat ++ [':']).isPrefixOf v

/-- The boundary condition to the left of an engine marker: either the
marker starts the string (then the scan flag must hold, i.e. `^` may
match) or the character immediately before it is whitespace (`\s+`). -/
def PreOk (flag : Bool) (pre : List Char) : Prop :=
  (pre = [] ∧ flag = true) ∨ ∃ d, pre.getLast? = some d ∧ pySpace d = true

/-- A decomposition of `cs` exhibiting a well-bounded engine marker `!w`:
`w` is a nonempty run of word characters preceded by start-of-string (when
the flag allows it) or whitespace and followed by end-of-string or
whitespace. -/
def HasBangF (flag : Bool) (cs w : List Char) : Prop :=
  ∃ pre post, cs = pre ++ '!' :: (w ++ post) ∧ PreOk flag pre ∧
    w ≠ [] ∧ (∀ c ∈ w, isWordChar c = true) ∧ boundaryAfter post = true

/-- `cs` contains a well-bounded engine marker `!w` (word characters,
bounded by start-of-string or whitespace on the left and end-of-string or
whitespace on the right). -/
def HasBang (cs w : List Char) : Prop :=
  HasBangF true cs w

/-- The claim-side search expansion in the words of the specification:
identical to `get_search_url` except that the marker word is one-or-more
NON-SPACE characters rather than word characters. -/
def get_search_url_spec (cfg : SearchConfig) (txt : List Char) :
    Except SearchError (List Char × List Char) :=
  match bangSearch (fun c => !(pySpace c)) true txt with
  | some engine => searchFrom cfg engine (bangSub (fun c => !(pySpace c)) txt)
  | none => searchFrom cfg defaultKey txt

/-- Projection of an `Except` result to an `Option`, for decidable
comparisons of concrete outcomes. -/
def exOk {ε α : Type} (e : Except ε α) : Option α :=
  match e with
  | Except.ok a => some a
  | Except.error _ => none

end Qb

namespace Editor

/-- Process exit status, mirroring `QProcess.ExitStatus`. -/
inductive ExitStatus
  | NormalExit
  | CrashExit
deriving DecidableEq, Repr

/-- Process error kind, mirroring `QProcess.ProcessError`; only `Crashed`
is exercised by the excerpt. -/
inductive ProcError
  | Crashed
  | FailedToStart
deriving DecidableEq, Repr

/-- The filesystem visible to the session: an association list from paths
to text contents. -/
abbrev FS := List (List Char × List Char)

/-- Read a file (`open(filename, 'r', encoding='utf-8').read()`); `none`
when the file does not exist (the read-failure case). -/
def FS.read (fs : FS) (p : List Char) : Option (List Char) :=
  fs.lookup p

/-- Create or overwrite a file with the given contents. -/
def FS.write (fs : FS) (p : List Char) (t : List Char) : FS :=
  (p, t) :: fs.filter (fun e => !(e.1 == p))

/-- Delete a file (`os.remove`). -/
def FS.remove (fs : FS) (p : List Char) : FS :=
  fs.filter (fun e => !(e.1 == p))

/-- Does a file exist (`os.path.exists`). -/
def FS.hasFile (fs : FS) (p : List Char) : Bool :=
  (fs.lookup p).isSome

/-- The placeholder token `{}` of the editor argument template. -/
def placeholder : List Char := [Char.ofNat 123, Char.ofNat 125]

/-- Modelled from the spec: the mutable state of
`qutebrowser.utils.editor.ExternalEditor` (the module is absent from the
excerpt).  Per the data model there is at most one live temp file per
session, so the state is the optional path of that file; `none` outside an
edit operation and after cleanup. -/
structure State where
  filename : Option (List Char)
deriving DecidableEq, Repr

/-- The observable effects of one callback/method invocation:
`proc.start(executable, args)`, the `editing_finished` signal payload,
the number of `message.error` calls, and the number of temp-file
deletions performed. -/
structure Output where
  started : Option (List Char × List (List Char))
  emitted : Option (List Char)
  errors : Nat
  removals : Nat
deriving DecidableEq, Repr

/-- An invocation that starts no process, emits nothing, and reports no
error or removal. -/
def Output.quiet : Output := ⟨none, none, 0, 0⟩

/-- The session state, filesystem, and observable output after one
invocation. -/
structure Step where
  st : State
  fs : FS
  out : Output
deriving DecidableEq, Repr

/-- Configuration errors: the configured editor command list is empty. -/
inductive EdError
  | emptyCommand
deriving DecidableEq, Repr

/-- Modelled from the spec: the idempotent cleanup action of the session
(spec §3, §4.2, §9) — on a terminal transition the temp file is removed
exactly once; cleanup with no live temp file is a no-op, which is what
makes a second cleanup attempt safe.  Returns the number of deletions
actually performed. -/
def cleanup (st : State) (fs : FS) : State × FS × Nat :=
  match st.filename with
  | none => (st, fs, 0)
  | some p => (⟨none⟩, FS.remove fs p, if FS.hasFile fs p then 1 else 0)

/-- Modelled from the spec: `ExternalEditor.edit(text)` — write `text` to
a fresh temp file (`tmpPath` stands for the unique name `tempfile`
chooses), then start the configured external command, whose argument list
replaces each token equal to the literal placeholder `{}` by the temp-file
path and passes every other token through unchanged (the replacement is
per whole token, as pinned by `ArgTests.test_placeholder` and
`ArgTests.test_in_arg_placeholder` in `test_editor.py`).  An empty
configured command list is a configuration error (spec §4.2). -/
def edit (editorCmd : List (List Char)) (tmpPath : List Char) (text : List Char)
    (_st : State) (fs : FS) : Except EdError Step :=
  match editorCmd with
  | [] => Except.error EdError.emptyCommand
  | executable :: args =>
      let fs1 := FS.write fs tmpPath text
      let argv := args.map (fun a => if a = placeholder then tmpPath else a)
      Except.ok ⟨⟨some tmpPath⟩, fs1, ⟨some (executable, argv), none, 0, 0⟩⟩

/-- Modelled from the spec: the `on_proc_closed(exitcode, exitstatus)`
callback.  A `CrashExit` status was already handled by `on_proc_error`,
so the callback returns without emitting, erroring, or touching the file
again (this is what makes crash-then-closed clean up exactly once).  On a
normal exit with status 0 the temp file is read and its contents emitted
through `editing_finished`; a read failure surfaces an error instead of
crashing the session.  On a nonzero status a user-visible error is shown
and nothing is emitted.  Every non-crash path runs cleanup. -/
def on_proc_closed (exitcode : Nat) (exitstatus : ExitStatus) (st : State) (fs : FS) :
    Step :=
  if exitstatus = ExitStatus.CrashExit then
    ⟨st, fs, Output.quiet⟩
  else if exitcode = 0 then
    match st.filename with
    | some p =>
        match FS.read fs p with
        | some text =>
            let (st1, fs1, n) := cleanup st fs
            ⟨st1, fs1, ⟨none, some text, 0, n⟩⟩
        | none =>
            let (st1, fs1, n) := cleanup st fs
            ⟨st1, fs1, ⟨none, none, 1, n⟩⟩
    | none =>
        let (st1, fs1, n) := cleanup st fs
        ⟨st1, fs1, ⟨none, none, 1, n⟩⟩
  else
    let (st1, fs1, n) := cleanup st fs
    ⟨st1, fs1, ⟨none, none, 1, n⟩⟩

/-- Modelled from the spec: the `on_proc_error(error)` callback — surface
a user-visible error (`message.error`), emit nothing, and clean up. -/
def on_proc_error (_e : ProcError) (st : State) (fs : FS) : Step :=
  let (st1, fs1, n) := cleanup st fs
  ⟨st1, fs1, ⟨none, none, 1, n⟩⟩

/-- The `proc.start` call observed from `edit`, as an `Option` projection
(usable with `decide`). -/
def editStarted (editorCmd : List (List Char)) (tmpPath : List Char) (text : List Char)
    (st : State) (fs : FS) : Option (List Char × List (List Char)) :=
  match edit editorCmd tmpPath text st fs with
  | Except.ok s => s.out.started
  | Except.error _ => none

/-- The `editing_finished` payload observed from `edit`, as an `Option`
projection. -/
def editEmitted (editorCmd : List (List Char)) (tmpPath : List Char) (text : List Char)
    (st : State) (fs : FS) : Option (List Char) :=
  match edit editorCmd tmpPath text st fs with
  | Except.ok s => s.out.emitted
  | Except.error _ => none

/-- The claim-side argument builder in the words of the specification:
a placeholder substring embedded anywhere inside a token is also
substituted with the path (`foo{}bar` becomes `foo<path>bar`).  Structural
recursion on the token. -/
def substPlaceholderF (path : List Char) : Nat → List Char → List Char
  | 0, cs => cs
  | _, [] => []
  | _, [c] => [c]
  | fuel + 1, c1 :: c2 :: cs =>
      if c1 = Char.ofNat 123 ∧ c2 = Char.ofNat 125 then
        path ++ substPlaceholderF path fuel cs
      else c1 :: substPlaceholderF path fuel (c2 :: cs)

/-- The claim-side substitution applied to one token, with enough fuel for
the whole token. -/
def substPlaceholder (path : List Char) (token : List Char) : List Char :=
  substPlaceholderF path token.length token

end Editor

namespace Editor

theorem FS.read_write (fs : FS) (p t : List Char) :
    FS.read (FS.write fs p t) p = some t := by
  simp [FS.read, FS.write, List.lookup]

theorem lookup_filter_ne (p : List Char) :
    ∀ fs : FS, List.lookup p (fs.filter (fun e => !(e.1 == p))) = none := by
  intro fs
  induction fs with
  | nil => simp
  | cons e t ih =>
      by_cases h : e.1 = p
      · simpa [List.filter, h] using ih
      · have hb : (e.1 == p) = false := by simpa using h
        simp only [List.filter, hb, Bool.not_false]
        simpa [List.lookup, BEq.symm_false hb] using ih

theorem FS.read_remove (fs : FS) (p : List Char) :
    FS.read (FS.remove fs p) p = none := by
  simpa [FS.read, FS.remove] using lookup_filter_ne p fs

theorem FS.hasFile_remove (fs : FS) (p : List Char) :
    FS.hasFile (FS.remove fs p) p = false := by
  simp [FS.hasFile, show List.lookup p (FS.remove fs p) = none from FS.read_remove fs p]

theorem FS.hasFile_of_read {fs : FS} {p t : List Char} (h : FS.read fs p = some t) :
    FS.hasFile fs p = true := by
  simp only [FS.hasFile]
  simp only [FS.read] at h
  rw [h]
  rfl

/-- C1 (amended): when the editor session builds the external command line
from a configured argument list `executable :: args`, every token equal to
the literal placeholder `{}` is replaced by the temp-file path and every
other token — including a token that merely contains `{}` as a proper
substring — passes through unchanged. -/
theorem edit_placeholder_exact_token (executable : List Char) (args : List (List Char))
    (tmpPath text : List Char) (st : State) (fs : FS) :
    ∃ argv, editStarted (executable :: args) tmpPath text st fs = some (executable, argv) ∧
      argv.length = args.length ∧
      ∀ i (h : i < args.length) (h2 : i < argv.length),
        (args.get ⟨i, h⟩ = placeholder → argv.get ⟨i, h2⟩ = tmpPath) ∧
        (args.get ⟨i, h⟩ ≠ placeholder → argv.get ⟨i, h2⟩ = args.get ⟨i, h⟩) := by
  refine ⟨args.map (fun a => if a = placeholder then tmpPath else a), rfl, by simp, ?_⟩
  intro i h h2
  simp only [List.get_eq_getElem] at *
  constructor
  · intro hp
    simp [List.getElem_map, hp]
  · intro hp
    simp [List.getElem_map, hp]

/-- Witness for C1 (amended) at the configured argument list
`['bin', '{}', 'foo{}bar']`. -/
theorem edit_placeholder_exact_token_witness :
    ∃ argv,
      editStarted [['b', 'i', 'n'], placeholder,
          ['f', 'o', 'o'] ++ placeholder ++ ['b', 'a', 'r']]
          ['/', 't', 'm', 'p', '/', 'x'] [] ⟨none⟩ [] =
        some (['b', 'i', 'n'], argv) ∧
      argv.length = [placeholder, ['f', 'o', 'o'] ++ placeholder ++ ['b', 'a', 'r']].length ∧
      ∀ i (h : i < [placeholder, ['f', 'o', 'o'] ++ placeholder ++ ['b', 'a', 'r']].length)
          (h2 : i < argv.length),
        ([placeholder, ['f', 'o', 'o'] ++ placeholder ++ ['b', 'a', 'r']].get ⟨i, h⟩ = placeholder →
          argv.get ⟨i, h2⟩ = ['/', 't', 'm', 'p', '/', 'x']) ∧
        ([placeholder, ['f', 'o', 'o'] ++ placeholder ++ ['b', 'a', 'r']].get ⟨i, h⟩ ≠ placeholder →
          argv.get ⟨i, h2⟩ =
            [placeholder, ['f', 'o', 'o'] ++ placeholder ++ ['b', 'a', 'r']].get ⟨i, h⟩) :=
  edit_placeholder_exact_token ['b', 'i', 'n']
    [placeholder, ['f', 'o', 'o'] ++ placeholder ++ ['b', 'a', 'r']]
    ['/', 't', 'm', 'p', '/', 'x'] [] ⟨none⟩ []

/-- C1 counterexample: for the configured argument list `['bin', 'foo{}bar']`
the session starts the editor with the token `foo{}bar` unchanged, whereas
the claim predicts the substring substitution `foo<path>bar` (the value of
the claim-side `substPlaceholder`); the two differ. -/
theorem edit_placeholder_substring_not_substituted :
    editStarted [['b', 'i', 'n'], ['f', 'o', 'o'] ++ placeholder ++ ['b', 'a', 'r']]
        ['/', 't', 'm', 'p', '/', 'x'] [] ⟨none⟩ [] =
      some (['b', 'i', 'n'], [['f', 'o', 'o'] ++ placeholder ++ ['b', 'a', 'r']]) ∧
    substPlaceholder ['/', 't', 'm', 'p', '/', 'x']
        (['f', 'o', 'o'] ++ placeholder ++ ['b', 'a', 'r']) =
      ['f', 'o', 'o'] ++ ['/', 't', 'm', 'p', '/', 'x'] ++ ['b', 'a', 'r'] ∧
    ['f', 'o', 'o'] ++ placeholder ++ ['b', 'a', 'r'] ≠
      ['f', 'o', 'o'] ++ ['/', 't', 'm', 'p', '/', 'x'] ++ ['b', 'a', 'r'] := by
  refine ⟨rfl, by decide, by decide⟩

/-- C2: `edit(text)` writes exactly `text` to the temp file; on process
exit with status 0 the session reads the temp file's full contents and
emits exactly those contents (and removes the file), so writing `text` and
closing with status 0 round-trips `text` exactly. -/
theorem edit_round_trip (executable : List Char) (args : List (List Char))
    (tmpPath text : List Char) (st : State) (fs : FS) :
    ∃ s1, edit (executable :: args) tmpPath text st fs = Except.ok s1 ∧
      FS.read s1.fs tmpPath = some text ∧
      s1.st.filename = some tmpPath ∧
      (∀ modified fs2, FS.read fs2 tmpPath = some modified →
        (on_proc_closed 0 ExitStatus.NormalExit s1.st fs2).out.emitted = some modified ∧
        FS.hasFile (on_proc_closed 0 ExitStatus.NormalExit s1.st fs2).fs tmpPath = false) ∧
      (on_proc_closed 0 ExitStatus.NormalExit s1.st s1.fs).out.emitted = some text := by
  have hall : ∀ modified fs2, FS.read fs2 tmpPath = some modified →
      (on_proc_closed 0 ExitStatus.NormalExit (⟨some tmpPath⟩ : State) fs2).out.emitted =
        some modified ∧
      FS.hasFile (on_proc_closed 0 ExitStatus.NormalExit (⟨some tmpPath⟩ : State) fs2).fs
        tmpPath = false := by
    intro modified fs2 hread
    constructor
    · simp [on_proc_closed, cleanup, hread]
    · simp [on_proc_closed, cleanup, hread, FS.hasFile_remove]
  refine ⟨_, rfl, FS.read_write fs tmpPath text, rfl, hall, ?_⟩
  exact (hall text (FS.write fs tmpPath text) (FS.read_write fs tmpPath text)).1

/-- Witness for C2 at the Unicode snowman text. -/
theorem edit_round_trip_witness :
    ∃ s1, edit [[]] ['/', 't'] [Char.ofNat 9731] ⟨none⟩ [] = Except.ok s1 ∧
      FS.read s1.fs ['/', 't'] = some [Char.ofNat 9731] ∧
      s1.st.filename = some ['/', 't'] ∧
      (∀ modified fs2, FS.read fs2 ['/', 't'] = some modified →
        (on_proc_closed 0 ExitStatus.NormalExit s1.st fs2).out.emitted = some modified ∧
        FS.hasFile (on_proc_closed 0 ExitStatus.NormalExit s1.st fs2).fs ['/', 't'] = false) ∧
      (on_proc_closed 0 ExitStatus.NormalExit s1.st s1.fs).out.emitted = some [Char.ofNat 9731] :=
  edit_round_trip [] [] ['/', 't'] [Char.ofNat 9731] ⟨none⟩ []

/-- C3: from an editing state (a live temp file), a normal exit with a
nonzero status and a process error each emit no edited text, surface
exactly one user-visible error, and remove the temp file (exactly one
removal). -/
theorem terminal_error_paths (st : State) (fs : FS) (p : List Char) (code : Nat)
    (hf : st.filename = some p) (hx : FS.hasFile fs p = true) (hc : code ≠ 0) :
    ((on_proc_closed code ExitStatus.NormalExit st fs).out.emitted = none ∧
      (on_proc_closed code ExitStatus.NormalExit st fs).out.errors = 1 ∧
      (on_proc_closed code ExitStatus.NormalExit st fs).out.removals = 1 ∧
      FS.hasFile (on_proc_closed code ExitStatus.NormalExit st fs).fs p = false) ∧
    ∀ e : ProcError,
      (on_proc_error e st fs).out.emitted = none ∧
      (on_proc_error e st fs).out.errors = 1 ∧
      (on_proc_error e st fs).out.removals = 1 ∧
      FS.hasFile (on_proc_error e st fs).fs p = false := by
  constructor
  · refine ⟨?_, ?_, ?_, ?_⟩ <;>
      simp [on_proc_closed, cleanup, hf, hx, hc, FS.hasFile_remove]
  · intro e
    refine ⟨?_, ?_, ?_, ?_⟩ <;>
      simp [on_proc_error, cleanup, hf, hx, FS.hasFile_remove]

/-- Witness for C3 at a concrete editing state and exit code 1. -/
theorem terminal_error_paths_witness :
    ((on_proc_closed 1 ExitStatus.NormalExit ⟨some ['/', 't']⟩ [(['/', 't'], [])]).out.emitted
        = none ∧
      (on_proc_closed 1 ExitStatus.NormalExit ⟨some ['/', 't']⟩ [(['/', 't'], [])]).out.errors
        = 1 ∧
      (on_proc_closed 1 ExitStatus.NormalExit ⟨some ['/', 't']⟩ [(['/', 't'], [])]).out.removals
        = 1 ∧
      FS.hasFile (on_proc_closed 1 ExitStatus.NormalExit ⟨some ['/', 't']⟩
        [(['/', 't'], [])]).fs ['/', 't'] = false) ∧
    ∀ e : ProcError,
      (on_proc_error e ⟨some ['/', 't']⟩ [(['/', 't'], [])]).out.emitted = none ∧
      (on_proc_error e ⟨some ['/', 't']⟩ [(['/', 't'], [])]).out.errors = 1 ∧
      (on_proc_error e ⟨some ['/', 't']⟩ [(['/', 't'], [])]).out.removals = 1 ∧
      FS.hasFile (on_proc_error e ⟨some ['/', 't']⟩ [(['/', 't'], [])]).fs ['/', 't'] = false :=
  terminal_error_paths ⟨some ['/', 't']⟩ [(['/', 't'], [])] ['/', 't'] 1 rfl (by decide)
    (by decide)

/-- C4: from an editing state, delivering the crash callback and then the
closed callback for the same session removes the temp file exactly once —
the first callback performs the single removal, the second performs none,
changes nothing, and emits nothing. -/
theorem crash_then_closed_cleanup_once (st : State) (fs : FS) (p : List Char)
    (hf : st.filename = some p) (hx : FS.hasFile fs p = true) :
    (on_proc_error ProcError.Crashed st fs).out.removals = 1 ∧
    FS.hasFile (on_proc_error ProcError.Crashed st fs).fs p = false ∧
    (on_proc_closed 0 ExitStatus.CrashExit (on_proc_error ProcError.Crashed st fs).st
      (on_proc_error ProcError.Crashed st fs).fs).out.removals = 0 ∧
    (on_proc_closed 0 ExitStatus.CrashExit (on_proc_error ProcError.Crashed st fs).st
      (on_proc_error ProcError.Crashed st fs).fs).st =
      (on_proc_error ProcError.Crashed st fs).st ∧
    (on_proc_closed 0 ExitStatus.CrashExit (on_proc_error ProcError.Crashed st fs).st
      (on_proc_error ProcError.Crashed st fs).fs).fs =
      (on_proc_error ProcError.Crashed st fs).fs ∧
    (on_proc_closed 0 ExitStatus.CrashExit (on_proc_error ProcError.Crashed st fs).st
      (on_proc_error ProcError.Crashed st fs).fs).out.emitted = none := by
  refine ⟨?_, ?_, ?_, ?_, ?_, ?_⟩ <;>
    simp [on_proc_error, on_proc_closed, cleanup, hf, hx, FS.hasFile_remove, Output.quiet]

/-- Witness for C4 at a concrete editing state. -/
theorem crash_then_closed_cleanup_once_witness :
    (on_proc_error ProcError.Crashed ⟨some ['/', 't']⟩ [(['/', 't'], [])]).out.removals = 1 ∧
    FS.hasFile (on_proc_error ProcError.Crashed ⟨some ['/', 't']⟩
      [(['/', 't'], [])]).fs ['/', 't'] = false ∧
    (on_proc_closed 0 ExitStatus.CrashExit
      (on_proc_error ProcError.Crashed ⟨some ['/', 't']⟩ [(['/', 't'], [])]).st
      (on_proc_error ProcError.Crashed ⟨some ['/', 't']⟩ [(['/', 't'], [])]).fs).out.removals
      = 0 ∧
    (on_proc_closed 0 ExitStatus.CrashExit
      (on_proc_error ProcError.Crashed ⟨some ['/', 't']⟩ [(['/', 't'], [])]).st
      (on_proc_error ProcError.Crashed ⟨some ['/', 't']⟩ [(['/', 't'], [])]).fs).st =
      (on_proc_error ProcError.Crashed ⟨some ['/', 't']⟩ [(['/', 't'], [])]).st ∧
    (on_proc_closed 0 ExitStatus.CrashExit
      (on_proc_error ProcError.Crashed ⟨some ['/', 't']⟩ [(['/', 't'], [])]).st
      (on_proc_error ProcError.Crashed ⟨some ['/', 't']⟩ [(['/', 't'], [])]).fs).fs =
      (on_proc_error ProcError.Crashed ⟨some ['/', 't']⟩ [(['/', 't'], [])]).fs ∧
    (on_proc_closed 0 ExitStatus.CrashExit
      (on_proc_error ProcError.Crashed ⟨some ['/', 't']⟩ [(['/', 't'], [])]).st
      (on_proc_error ProcError.Crashed ⟨some ['/', 't']⟩ [(['/', 't'], [])]).fs).out.emitted
      = none :=
  crash_then_closed_cleanup_once ⟨some ['/', 't']⟩ [(['/', 't'], [])] ['/', 't'] rfl (by decide)

end Editor

namespace Qb

theorem pySpace_not_word {d : Char} (h : pySpace d = true) : isWordChar d = false := by
  simp only [pySpace, Bool.or_eq_true, decide_eq_true_eq] at h
  rcases h with ((((h | h) | h) | h) | h) | h <;> subst h <;> decide

theorem boundary_head_not_word {post : List Char} (hb : boundaryAfter post = true) :
    ∀ d ds, post = d :: ds → isWordChar d = false := by
  intro d ds h
  subst h
  simp only [boundaryAfter] at hb
  exact pySpace_not_word hb

theorem takeWhile_dropWhile_append {p : Char → Bool} :
    ∀ (w post : List Char), (∀ c ∈ w, p c = true) →
      (∀ d ds, post = d :: ds → p d = false) →
      (w ++ post).takeWhile p = w ∧ (w ++ post).dropWhile p = post := by
  intro w
  induction w with
  | nil =>
      intro post _ hp
      cases post with
      | nil => simp
      | cons d ds => simp [List.takeWhile_cons, List.dropWhile_cons, hp d ds rfl]
  | cons c w2 ih =>
      intro post hall hp
      have hc : p c = true := hall c (by simp)
      have h2 := ih post (fun x hx => hall x (by simp [hx])) hp
      simp [List.takeWhile_cons, List.dropWhile_cons, hc, h2.1, h2.2]

theorem bangToken_inv {p : Char → Bool} {cs w : List Char}
    (h : bangToken p cs = some w) :
    ∃ rest, cs = '!' :: rest ∧ w = rest.takeWhile p ∧ w ≠ [] ∧
      boundaryAfter (rest.dropWhile p) = true := by
  cases cs with
  | nil => simp [bangToken] at h
  | cons c rest =>
      by_cases hc : c = '!'
      · subst hc
        simp only [bangToken] at h
        by_cases he : (rest.takeWhile p).isEmpty
        · simp [he] at h
        · by_cases hb : boundaryAfter (rest.dropWhile p)
          · simp only [he, hb, if_true, if_false, Bool.false_eq_true] at h
            refine ⟨rest, rfl, (Option.some.inj h).symm, ?_, hb⟩
            intro hnil
            rw [hnil] at h
            apply he
            rw [Option.some.inj h]
            rfl
          · simp [he, hb] at h
      · simp [bangToken, hc] at h

theorem bangToken_mk {w post : List Char} (hw : w ≠ [])
    (hall : ∀ c ∈ w, isWordChar c = true) (hb : boundaryAfter post = true) :
    bangToken isWordChar ('!' :: (w ++ post)) = some w := by
  obtain ⟨ht, hd⟩ :=
    takeWhile_dropWhile_append w post hall (boundary_head_not_word hb)
  have hne : (w ++ post).takeWhile isWordChar ≠ [] := by rw [ht]; exact hw
  have hemp : ((w ++ post).takeWhile isWordChar).isEmpty = false := by
    cases hcase : (w ++ post).takeWhile isWordChar with
    | nil => exact absurd hcase hne
    | cons a as => rfl
  simp [bangToken, hemp, hd, hb, ht, hw]

theorem HasBangF_cons {flag : Bool} {c : Char} {cs w : List Char}
    (h : HasBangF (pySpace c) cs w) : HasBangF flag (c :: cs) w := by
  obtain ⟨pre, post, hcs, hpre, hw, hall, hb⟩ := h
  refine ⟨c :: pre, post, by simp [hcs], ?_, hw, hall, hb⟩
  rcases hpre with ⟨hpe, hfl⟩ | ⟨d, hd, hsp⟩
  · subst hpe
    exact Or.inr ⟨c, by simp, hfl⟩
  · refine Or.inr ⟨d, ?_, hsp⟩
    cases pre with
    | nil => simp at hd
    | cons e pre2 => simpa [List.getLast?_cons_cons] using hd

theorem bangSearch_sound {txt : List Char} :
    ∀ {flag : Bool} {w : List Char},
      bangSearch isWordChar flag txt = some w → HasBangF flag txt w := by
  induction txt with
  | nil => intro flag w h; simp [bangSearch] at h
  | cons c rest ih =>
      intro flag w h
      simp only [bangSearch] at h
      cases hf : flag with
      | false =>
          subst hf
          simp only [if_false, Bool.false_eq_true] at h
          exact HasBangF_cons (ih h)
      | true =>
          subst hf
          simp only [if_true] at h
          cases ht : bangToken isWordChar (c :: rest) with
          | none =>
              rw [ht] at h
              exact HasBangF_cons (ih h)
          | some w0 =>
              rw [ht] at h
              have hww : w0 = w := Option.some.inj h
              subst hww
              obtain ⟨r2, hcs, hwt, hwne, hbd⟩ := bangToken_inv ht
              have hcc : c = '!' ∧ rest = r2 := by
                have := List.cons.injEq c rest '!' r2 ▸ hcs
                exact ⟨(List.cons.inj hcs).1, (List.cons.inj hcs).2⟩
              obtain ⟨hc1, hr⟩ := hcc
              subst hc1
              subst hr
              refine ⟨[], rest.dropWhile isWordChar, ?_, Or.inl ⟨rfl, rfl⟩, hwne, ?_, hbd⟩
              · simp only [List.nil_append]
                rw [hwt]
                simp [List.takeWhile_append_dropWhile]
              · intro x hx
                rw [hwt] at hx
                exact List.mem_takeWhile_imp hx

theorem bangSearch_complete :
    ∀ (pre : List Char) (flag : Bool) (w post : List Char),
      PreOk flag pre → w ≠ [] → (∀ c ∈ w, isWordChar c = true) →
      boundaryAfter post = true →
      (bangSearch isWordChar flag (pre ++ '!' :: (w ++ post))).isSome = true := by
  intro pre
  induction pre with
  | nil =>
      intro flag w post hpre hw hall hb
      have hfl : flag = true := by
        rcases hpre with ⟨_, h⟩ | ⟨d, hd, _⟩
        · exact h
        · simp at hd
      subst hfl
      have hm := bangToken_mk hw hall hb
      simp [bangSearch, hm]
  | cons c pre2 ih =>
      intro flag w post hpre hw hall hb
      have hpre2 : PreOk (pySpace c) pre2 := by
        rcases hpre with ⟨h, _⟩ | ⟨d, hd, hsp⟩
        · simp at h
        · cases pre2 with
          | nil =>
              simp only [List.getLast?_singleton, Option.some.injEq] at hd
              subst hd
              exact Or.inl ⟨rfl, hsp⟩
          | cons e pre3 =>
              exact Or.inr ⟨d, by simpa [List.getLast?_cons_cons] using hd, hsp⟩
      have hrec := ih (pySpace c) w post hpre2 hw hall hb
      simp only [List.cons_append, bangSearch]
      cases hm : (if flag then bangToken isWordChar (c :: (pre2 ++ '!' :: (w ++ post)))
          else none) with
      | some w0 => simp
      | none => simpa using hrec

theorem bangSearch_none_no_bang {txt : List Char}
    (h : bangSearch isWordChar true txt = none) : ∀ w, ¬ HasBang txt w := by
  intro w hb
  obtain ⟨pre, post, hcs, hpre, hw, hall, hba⟩ := hb
  have hc := bangSearch_complete pre true w post hpre hw hall hba
  rw [← hcs, h] at hc
  simp at hc

end Qb

namespace Qb

theorem stripHttpF_fuel_irrel :
    ∀ (f1 : Nat) (cs : List Char) (f2 : Nat), cs.length ≤ f1 → cs.length ≤ f2 →
      stripHttpF f1 cs = stripHttpF f2 cs := by
  intro f1
  induction f1 with
  | zero =>
      intro cs f2 h1 _
      have hnil : cs = [] := List.length_eq_zero.mp (Nat.le_zero.mp h1)
      subst hnil
      cases f2 <;> rfl
  | succ f ih =>
      intro cs f2 h1 h2
      cases cs with
      | nil => cases f2 <;> rfl
      | cons c cs2 =>
          have hlen : cs2.length + 1 ≤ f + 1 := by simpa using h1
          cases f2 with
          | zero => simp at h2
          | succ g =>
              have hlen2 : cs2.length + 1 ≤ g + 1 := by simpa using h2
              simp only [stripHttpF]
              by_cases hp : httpPat.isPrefixOf (c :: cs2) = true
              · simp only [hp, if_true]
                apply ih
                · simp only [List.length_drop, List.length_cons]
                  omega
                · simp only [List.length_drop, List.length_cons]
                  omega
              · simp only [hp, if_false, Bool.false_eq_true]
                rw [ih cs2 g (by omega) (by omega)]

theorem httpPat_isPrefixOf_cons_ne {c : Char} (cs : List Char) (h : c ≠ 'h') :
    httpPat.isPrefixOf (c :: cs) = false := by
  have hb : ('h' == c) = false := by
    simp only [beq_eq_false_iff_ne]
    exact fun he => h he.symm
  simp [httpPat, List.isPrefixOf, hb]

theorem stripHttp_cons_ne {c : Char} (cs : List Char) (h : c ≠ 'h') :
    stripHttp (c :: cs) = c :: stripHttp cs := by
  simp only [stripHttp, List.length_cons, stripHttpF, httpPat_isPrefixOf_cons_ne cs h,
    if_false, Bool.false_eq_true]

theorem stripHttp_http_prefix (t : List Char) :
    stripHttp (httpPat ++ t) = stripHttp t := by
  have hpre : httpPat.isPrefixOf (httpPat ++ t) = true :=
    List.isPrefixOf_iff_prefix.mpr ⟨t, rfl⟩
  have hdrop : (httpPat ++ t).drop 7 = t := by
    have h7 : (7 : Nat) = httpPat.length := by simp [httpPat]
    rw [h7, List.drop_left]
  have hlen : (httpPat ++ t).length = t.length + 7 := by simp [httpPat]
  show stripHttpF (httpPat ++ t).length (httpPat ++ t) = stripHttp t
  rw [hlen]
  have hcons : httpPat ++ t = 'h' :: ('t' :: 't' :: 'p' :: ':' :: '/' :: '/' :: t) := by
    simp [httpPat]
  have hstep : stripHttpF (t.length + 7) (httpPat ++ t) =
      stripHttpF (t.length + 6) ((httpPat ++ t).drop 7) := by
    rw [hcons]
    show stripHttpF (t.length + 6 + 1) _ = _
    simp only [stripHttpF, ← hcons, hpre, if_true]
  rw [hstep, hdrop]
  exact stripHttpF_fuel_irrel (t.length + 6) t t.length (by omega) (by omega)

theorem prefixOf_ex {p l : List Char} (h : p.isPrefixOf l = true) :
    ∃ t, l = p ++ t := by
  obtain ⟨t, ht⟩ := List.isPrefixOf_iff_prefix.mp h
  exact ⟨t, ht.symm⟩

theorem about_prefix_stripHttp (t : List Char) :
    aboutPat.isPrefixOf (stripHttp (aboutPat ++ ':' :: t)) = true := by
  have h1 : stripHttp (aboutPat ++ ':' :: t) =
      'a' :: 'b' :: 'o' :: 'u' :: 't' :: ':' :: stripHttp t := by
    simp only [aboutPat, List.cons_append, List.nil_append]
    rw [stripHttp_cons_ne _ (by decide), stripHttp_cons_ne _ (by decide),
      stripHttp_cons_ne _ (by decide), stripHttp_cons_ne _ (by decide),
      stripHttp_cons_ne _ (by decide), stripHttp_cons_ne _ (by decide)]
  rw [h1]
  simp [aboutPat, List.isPrefixOf]

theorem qute_prefix_stripHttp (t : List Char) :
    qutePat.isPrefixOf (stripHttp (qutePat ++ ':' :: t)) = true := by
  have h1 : stripHttp (qutePat ++ ':' :: t) =
      'q' :: 'u' :: 't' :: 'e' :: ':' :: stripHttp t := by
    simp only [qutePat, List.cons_append, List.nil_append]
    rw [stripHttp_cons_ne _ (by decide), stripHttp_cons_ne _ (by decide),
      stripHttp_cons_ne _ (by decide), stripHttp_cons_ne _ (by decide),
      stripHttp_cons_ne _ (by decide)]
  rw [h1]
  simp [qutePat, List.isPrefixOf]

theorem spec_special_imp_special {u : List Char} (h : spec_special u = true) :
    is_special_url u = true := by
  simp only [spec_special] at h
  by_cases hh : httpPat.isPrefixOf u = true
  · obtain ⟨t, ht⟩ := prefixOf_ex hh
    subst ht
    rw [hh] at h
    simp only [if_true, Bool.or_eq_true] at h
    have hdrop : (httpPat ++ t).drop 7 = t := by
      have h7 : (7 : Nat) = httpPat.length := by simp [httpPat]
      rw [h7, List.drop_left]
    rw [hdrop] at h
    rcases h with h | h
    · obtain ⟨t2, ht2⟩ := prefixOf_ex h
      have ht3 : t = aboutPat ++ ':' :: t2 := by simpa using ht2
      subst ht3
      simp only [is_special_url, stripHttp_http_prefix, Bool.or_eq_true]
      exact Or.inl (about_prefix_stripHttp t2)
    · obtain ⟨t2, ht2⟩ := prefixOf_ex h
      have ht3 : t = qutePat ++ ':' :: t2 := by simpa using ht2
      subst ht3
      simp only [is_special_url, stripHttp_http_prefix, Bool.or_eq_true]
      exact Or.inr (qute_prefix_stripHttp t2)
  · have hh2 : httpPat.isPrefixOf u = false := by
      cases hcase : httpPat.isPrefixOf u
      · rfl
      · exact absurd hcase hh
    rw [hh2] at h
    simp only [if_false, Bool.or_eq_true, Bool.false_eq_true] at h
    rcases h with h | h
    · obtain ⟨t2, ht2⟩ := prefixOf_ex h
      have ht3 : u = aboutPat ++ ':' :: t2 := by simpa using ht2
      subst ht3
      simp only [is_special_url, Bool.or_eq_true]
      exact Or.inl (about_prefix_stripHttp t2)
    · obtain ⟨t2, ht2⟩ := prefixOf_ex h
      have ht3 : u = qutePat ++ ':' :: t2 := by simpa using ht2
      subst ht3
      simp only [is_special_url, Bool.or_eq_true]
      exact Or.inr (qute_prefix_stripHttp t2)

end Qb

namespace Qb

theorem searchFrom_error_of (cfg : SearchConfig) (key term : List Char)
    (h : cfg.lookup key = none ∨ term = []) :
    ∃ er, searchFrom cfg key term = Except.error er := by
  rcases h with h | h
  · exact ⟨SearchError.noTemplate, by simp [searchFrom, h]⟩
  · cases hl : cfg.lookup key with
    | none => exact ⟨SearchError.noTemplate, by simp [searchFrom, hl]⟩
    | some t => exact ⟨SearchError.noTerm, by simp [searchFrom, hl, h]⟩

/-- C5 (amended): `_get_search_url` scans the input for a token `!word`
where `word` is one-or-more WORD characters (letters, digits, underscore —
the `\w+` of the regex, not arbitrary non-space characters), bounded by
start-of-string or whitespace on both sides; when the scan finds one, its
word is a well-bounded marker of the input and the selected engine, and
the marker is stripped from the term; when the scan finds none, no
well-bounded marker exists in the input at all and the `DEFAULT` template
is used with the whole input as the term. -/
theorem get_search_url_marker_word_chars (cfg : SearchConfig) (txt : List Char) :
    (∀ w, bangSearch isWordChar true txt = some w → HasBang txt w) ∧
    (bangSearch isWordChar true txt = none → ∀ w, ¬ HasBang txt w) ∧
    (∀ w, bangSearch isWordChar true txt = some w →
      get_search_url cfg txt = searchFrom cfg w (bangSub isWordChar txt)) ∧
    (bangSearch isWordChar true txt = none →
      get_search_url cfg txt = searchFrom cfg defaultKey txt) := by
  refine ⟨fun w h => bangSearch_sound h, fun h => bangSearch_none_no_bang h, ?_, ?_⟩
  · intro w h
    simp [get_search_url, h]
  · intro h
    simp [get_search_url, h]

/-- Witness for C5 (amended) at the input `!g c` and a one-engine
configuration. -/
theorem get_search_url_marker_word_chars_witness :
    HasBang ['!', 'g', ' ', 'c'] ['g'] ∧
    get_search_url [(['g'], ['T'])] ['!', 'g', ' ', 'c'] =
      searchFrom [(['g'], ['T'])] ['g'] (bangSub isWordChar ['!', 'g', ' ', 'c']) :=
  ⟨(get_search_url_marker_word_chars [(['g'], ['T'])] ['!', 'g', ' ', 'c']).1 ['g'] (by decide),
   (get_search_url_marker_word_chars [(['g'], ['T'])] ['!', 'g', ' ', 'c']).2.2.1 ['g']
     (by decide)⟩

/-- C5 counterexample: on the input `!a-b c` the claim-side scanner (word =
one-or-more non-space characters) selects engine `a-b` and term `c`, but
`_get_search_url` finds no `\w+` marker (`-` is not a word character) and
uses the `DEFAULT` template with the whole input as the term; the two
outcomes differ. -/
theorem get_search_url_nonspace_word_counterexample :
    exOk (get_search_url_spec [(['a', '-', 'b'], ['A']), (defaultKey, ['D'])]
        ['!', 'a', '-', 'b', ' ', 'c']) = some (['A'], ['c']) ∧
    exOk (get_search_url [(['a', '-', 'b'], ['A']), (defaultKey, ['D'])]
        ['!', 'a', '-', 'b', ' ', 'c']) =
      some (['D'], ['!', 'a', '-', 'b', ' ', 'c']) ∧
    (some (['A'], ['c']) : Option (List Char × List Char)) ≠
      some (['D'], ['!', 'a', '-', 'b', ' ', 'c']) := by
  refine ⟨by decide, by decide, by decide⟩

/-- C6 (amended): an input matching the special-scheme prefix (`about:` or
`qute:`, allowing an optional leading `http://`) is classified as a URL
under every enabled autosearch mode — provided it contains no space, since
the space check of `is_url` runs before the special-URL check. -/
theorem special_url_always_url_when_spacefree (hostOf : List Char → List Char)
    (resolve : List Char → Bool) (mode : AutoSearch) (u : List Char)
    (hmode : mode ≠ AutoSearch.disabled) (hsp : u.contains ' ' = false)
    (hspec : spec_special u = true) :
    is_url hostOf resolve mode u = Except.ok true := by
  have hspecial : is_special_url u = true := spec_special_imp_special hspec
  have hsp2 : ' ' ∉ u := by simpa using hsp
  cases mode with
  | disabled => exact absurd rfl hmode
  | dns => simp [is_url, hsp2, hspecial]
  | naive => simp [is_url, hsp2, hspecial]
  | invalid => simp [is_url, hsp2, hspecial]

/-- Witness for C6 (amended) at the input `about:x` in naive mode. -/
theorem special_url_always_url_when_spacefree_witness :
    is_url (fun _ => []) (fun _ => false) AutoSearch.naive
      ['a', 'b', 'o', 'u', 't', ':', 'x'] = Except.ok true :=
  special_url_always_url_when_spacefree (fun _ => []) (fun _ => false)
    AutoSearch.naive ['a', 'b', 'o', 'u', 't', ':', 'x'] (by decide) (by decide) (by decide)

/-- C6 counterexample: the input `about:f b` matches the special-scheme
prefix, autosearch is enabled (naive), yet the classifier returns search
(`False`), because the space check precedes the special-URL check. -/
theorem special_url_space_counterexample :
    spec_special ['a', 'b', 'o', 'u', 't', ':', 'f', ' ', 'b'] = true ∧
    is_url (fun _ => []) (fun _ => false) AutoSearch.naive
      ['a', 'b', 'o', 'u', 't', ':', 'f', ' ', 'b'] = Except.ok false :=
  ⟨by decide, rfl⟩

/-- C7: with autosearch enabled (any mode other than disabled), every input
containing a space is classified as a search term; and in naive mode a
space-free, non-special input is classified as a URL exactly when it
starts with `http://` or `https://`, contains a literal `.`, or equals
`localhost`. -/
theorem space_never_url_and_naive_check (hostOf : List Char → List Char)
    (resolve : List Char → Bool) (mode : AutoSearch) (u : List Char) :
    (mode ≠ AutoSearch.disabled → u.contains ' ' = true →
      is_url hostOf resolve mode u = Except.ok false) ∧
    (u.contains ' ' = false → is_special_url u = false →
      is_url hostOf resolve AutoSearch.naive u =
        Except.ok (httpPat.isPrefixOf u || httpsPat.isPrefixOf u ||
          u.contains '.' || u == localhostStr)) := by
  constructor
  · intro hmode hsp
    have hsp2 : ' ' ∈ u := by simpa using hsp
    cases mode with
    | disabled => exact absurd rfl hmode
    | dns => simp [is_url, hsp2]
    | naive => simp [is_url, hsp2]
    | invalid => simp [is_url, hsp2]
  · intro hsp hspec
    have hsp2 : ' ' ∉ u := by simpa using hsp
    simp [is_url, hsp2, hspec, is_url_naive]

/-- Witness for C7 at the inputs `foo bar` (space, search) and
`example.com` (space-free, non-special, naive). -/
theorem space_never_url_and_naive_check_witness :
    is_url (fun _ => []) (fun _ => false) AutoSearch.naive
      ['f', 'o', 'o', ' ', 'b', 'a', 'r'] = Except.ok false ∧
    is_url (fun _ => []) (fun _ => false) AutoSearch.naive
      ['e', 'x', 'a', 'm', 'p', 'l', 'e', '.', 'c', 'o', 'm'] =
      Except.ok (httpPat.isPrefixOf ['e', 'x', 'a', 'm', 'p', 'l', 'e', '.', 'c', 'o', 'm'] ||
        httpsPat.isPrefixOf ['e', 'x', 'a', 'm', 'p', 'l', 'e', '.', 'c', 'o', 'm'] ||
        List.contains ['e', 'x', 'a', 'm', 'p', 'l', 'e', '.', 'c', 'o', 'm'] '.' ||
        ['e', 'x', 'a', 'm', 'p', 'l', 'e', '.', 'c', 'o', 'm'] == localhostStr) :=
  ⟨(space_never_url_and_naive_check (fun _ => []) (fun _ => false) AutoSearch.naive
      ['f', 'o', 'o', ' ', 'b', 'a', 'r']).1 (by decide) (by decide),
   (space_never_url_and_naive_check (fun _ => []) (fun _ => false) AutoSearch.naive
      ['e', 'x', 'a', 'm', 'p', 'l', 'e', '.', 'c', 'o', 'm']).2 (by decide) (by decide)⟩

/-- C8: when the input is classified as a search term and either no
template is configured for the selected engine key or the remaining term
is empty after stripping the marker, `_get_search_url` raises and
`fuzzy_url` falls back to interpreting the raw input as a literal URL
(`QUrl.fromUserInput`) instead of propagating the error. -/
theorem search_failure_falls_back_to_raw_url (hostOf : List Char → List Char)
    (resolve : List Char → Bool) (mode : AutoSearch) (cfg : SearchConfig)
    (u : List Char)
    (hurl : is_url hostOf resolve mode u = Except.ok false)
    (hfail : cfg.lookup (selectedKey u) = none ∨ strippedTerm u = []) :
    fuzzy_url hostOf resolve mode cfg u = Except.ok (FuzzyResult.fromUserInput u) := by
  have herr : ∃ er, get_search_url cfg u = Except.error er := by
    cases hb : bangSearch isWordChar true u with
    | none =>
        simp only [selectedKey, strippedTerm, hb] at hfail
        simp only [get_search_url, hb]
        exact searchFrom_error_of cfg defaultKey u hfail
    | some w =>
        simp only [selectedKey, strippedTerm, hb] at hfail
        simp only [get_search_url, hb]
        exact searchFrom_error_of cfg w (bangSub isWordChar u) hfail
  obtain ⟨er, he⟩ := herr
  simp only [fuzzy_url, hurl, he]

/-- Witness for C8: empty configuration (no template for any key) and the
search-classified input `f b`. -/
theorem search_failure_falls_back_to_raw_url_witness :
    fuzzy_url (fun _ => []) (fun _ => false) AutoSearch.naive []
      ['f', ' ', 'b'] = Except.ok (FuzzyResult.fromUserInput ['f', ' ', 'b']) :=
  search_failure_falls_back_to_raw_url (fun _ => []) (fun _ => false)
    AutoSearch.naive [] ['f', ' ', 'b'] rfl (Or.inl rfl)

/-- C9 (amended): an autosearch mode value other than disabled, dns and
naive makes the classifier raise `ValueError` — for the inputs that reach
the mode dispatch, i.e. inputs containing no space that are not special
URLs (the space and special-URL checks answer before the mode is
examined). -/
theorem invalid_autosearch_raises_when_reached (hostOf : List Char → List Char)
    (resolve : List Char → Bool) (u : List Char)
    (h1 : u.contains ' ' = false) (h2 : is_special_url u = false) :
    is_url hostOf resolve AutoSearch.invalid u = Except.error () := by
  have h12 : ' ' ∉ u := by simpa using h1
  simp [is_url, h12, h2]

/-- Witness for C9 (amended) at the input `foo`. -/
theorem invalid_autosearch_raises_when_reached_witness :
    is_url (fun _ => []) (fun _ => false) AutoSearch.invalid ['f', 'o', 'o'] =
      Except.error () :=
  invalid_autosearch_raises_when_reached (fun _ => []) (fun _ => false)
    ['f', 'o', 'o'] (by decide) (by decide)

/-- C9 counterexample: with an invalid autosearch mode the input `foo bar`
is classified as search (`Except.ok false`) — the classifier does NOT
raise for every input, because the space check runs before the mode
dispatch. -/
theorem invalid_autosearch_no_raise_counterexample :
    is_url (fun _ => []) (fun _ => false) AutoSearch.invalid
      ['f', 'o', 'o', ' ', 'b', 'a', 'r'] = Except.ok false :=
  rfl

/-- C10: in dns mode, for an input that reaches the DNS branch (no space,
not special), an empty parsed host makes the classifier return search
(`False`) for EVERY resolution oracle — i.e. without attempting any DNS
name resolution; `_is_url_dns` itself returns false on the empty host
before consulting the oracle. -/
theorem dns_empty_host_is_search (hostOf : List Char → List Char)
    (resolve : List Char → Bool) (u : List Char)
    (h1 : u.contains ' ' = false) (h2 : is_special_url u = false)
    (h3 : hostOf u = []) :
    is_url hostOf resolve AutoSearch.dns u = Except.ok false ∧
    is_url_dns resolve (hostOf u) = false ∧
    ∀ resolve2, is_url hostOf resolve2 AutoSearch.dns u =
      is_url hostOf resolve AutoSearch.dns u := by
  have h12 : ' ' ∉ u := by simpa using h1
  have hd : ∀ r : List Char → Bool, is_url_dns r (hostOf u) = false := by
    intro r
    simp [is_url_dns, h3]
  refine ⟨?_, hd resolve, ?_⟩
  · simp [is_url, h12, h2, hd resolve]
  · intro r2
    simp [is_url, h12, h2, hd resolve, hd r2]

/-- Witness for C10 at the input `foo` and the empty-host parser. -/
theorem dns_empty_host_is_search_witness :
    is_url (fun _ => []) (fun _ => false) AutoSearch.dns ['f', 'o', 'o'] =
        Except.ok false ∧
    is_url_dns (fun _ => false) ((fun _ => ([] : List Char)) ['f', 'o', 'o']) = false ∧
    ∀ resolve2, is_url (fun _ => []) resolve2 AutoSearch.dns ['f', 'o', 'o'] =
      is_url (fun _ => []) (fun _ => false) AutoSearch.dns ['f', 'o', 'o'] :=
  dns_empty_host_is_search (fun _ => []) (fun _ => false) ['f', 'o', 'o']
    (by decide) (by decide) rfl

end Qb
